import Mathlib

/-!
Shallow embedding of the streaming Aho-Corasick replacement layer
(`src/replacer.rs`) and proofs of the specified properties.

Bytes are modelled as `Nat` (no arithmetic is ever performed on them, so no
wrap-around modelling is needed).  The automaton adapter (an external
collaborator in the source: `Arc<dyn AcAutomaton>` together with the
`AhoCorasickKind` dispatch tag) is modelled as a structure of pure functions;
`coerce_concrete` is a dynamic-dispatch optimisation with no semantic content
and is therefore not modelled, while the `kind` tag is kept as an opaque field
of the replacer.  `StateID` is modelled as `Nat`, `MatchError` as an opaque
carrier.  Rust panics that the code can in principle reach (an out-of-bounds
slot assignment in `write_to_buffer`, an out-of-bounds `replace_with[pid]`
index) are modelled explicitly with the `Panic` error layer, so that theorems
about their unreachability are meaningful.
-/

namespace AhoCorasick

/-- Opaque carrier for the externally defined `MatchError` type: the replacer
never constructs or inspects one, it only propagates values. -/
structure MatchError where
  code : Nat
deriving DecidableEq, Repr

/-- The two Rust panics the replacer code could in principle hit: the slot
assignment `buf[*idx] = char` in `write_to_buffer` when the index is still out
of bounds after resizing, and the table index `self.replace_with[pattern_id]`
when the pattern id has no entry. -/
inductive Panic where
  | indexOutOfBounds
  | missingReplacement
deriving DecidableEq, Repr

/-- The automaton adapter consumed by the replacer (trait `AcAutomaton` in the
source).  `nextState` is total; `startState` models
`start_state(Anchored::No)`, the single fallible operation; `matchPattern s`
models `match_pattern(s, 0)` (the source only ever consults index 0). -/
structure AcAutomaton where
  nextState : Nat → Nat → Nat
  isStart : Nat → Bool
  isMatch : Nat → Bool
  matchPattern : Nat → Nat
  patternLen : Nat → Nat
  startState : Except MatchError Nat

/-- The replacer struct.  `buffer` is the reusable output buffer (`Vec<u8>`),
`potential_buffer` the pending-match queue (`VecDeque<u8>`, head = front),
`kind` the opaque dispatch tag. -/
structure AhoCorasickReplacer where
  aut : AcAutomaton
  kind : Nat
  sid : Nat
  replace_with : List (List Nat)
  buffer : List Nat
  potential_buffer : List Nat

/-- The state mutated by the per-byte loop inside `replace`: the automaton
state, the pending queue, the output buffer and the write index. -/
structure LoopState where
  sid : Nat
  potential_buffer : List Nat
  buffer : List Nat
  write_idx : Nat
deriving DecidableEq, Repr

/-- `AhoCorasickReplacer::new`: acquire the unanchored start state (the single
fallible step) and build the replacer with empty buffers. -/
def AhoCorasickReplacer.new (aut : AcAutomaton) (kind : Nat)
    (replace_with : List (List Nat)) : Except MatchError AhoCorasickReplacer :=
  match aut.startState with
  | .error e => .error e
  | .ok sid => .ok ⟨aut, kind, sid, replace_with, [], []⟩

/-- `AhoCorasickReplacer::write_to_buffer`: if the write index has reached the
buffer length, the buffer is doubled (`buf.resize(buf.len() * 2, 0)`); then
the byte is stored at the index and the index is advanced.  If the slot is
still out of bounds after the resize (the zero-length no-growth stall), Rust
would panic, modelled as `Panic.indexOutOfBounds`. -/
def write_to_buffer (buf : List Nat) (idx : Nat) (c : Nat) :
    Except Panic (List Nat × Nat) :=
  let buf2 := if buf.length ≤ idx then buf ++ List.replicate buf.length 0 else buf
  if idx < buf2.length then .ok (buf2.set idx c, idx + 1)
  else .error Panic.indexOutOfBounds

/-- The two `while self.potential_buffer.len() > n` loops of `replace`: pop
the front of the pending queue and write it to the output buffer until at most
`plen` bytes remain (the truncation loop; the flush loop is the `plen = 0`
instance). -/
def drainPotential (plen : Nat) : List Nat → List Nat → Nat →
    Except Panic (List Nat × List Nat × Nat)
  | [], buf, idx => .ok ([], buf, idx)
  | b :: rest, buf, idx =>
    if rest.length + 1 ≤ plen then .ok (b :: rest, buf, idx)
    else
      match write_to_buffer buf idx b with
      | .error p => .error p
      | .ok (buf2, idx2) => drainPotential plen rest buf2 idx2

/-- The `for replaced_byte in replacement.iter()` loop of `replace`: write
every replacement byte to the output buffer in order. -/
def write_replacement : List Nat → List Nat → Nat → Except Panic (List Nat × Nat)
  | [], buf, idx => .ok (buf, idx)
  | b :: rest, buf, idx =>
    match write_to_buffer buf idx b with
    | .error p => .error p
    | .ok (buf2, idx2) => write_replacement rest buf2 idx2

/-- The `else` branch of the per-byte loop of `replace` (the new state is not
the start state): the current byte has just been appended to the pending queue
(`pb1`); if the new state is a match state, truncate the pending queue down to
the pattern length, writing the popped bytes out, clear the rest, write the
replacement bytes and reset the state via `start_state(Anchored::No)` (whose
error is propagated by `?`). -/
def handleNonStart (aut : AcAutomaton) (rtab : List (List Nat)) (sid1 : Nat)
    (pb1 buf : List Nat) (idx : Nat) :
    Except Panic (Except MatchError LoopState) :=
  if aut.isMatch sid1 then
    let pattern_id := aut.matchPattern sid1
    let pattern_len := aut.patternLen pattern_id
    match drainPotential pattern_len pb1 buf idx with
    | .error p => .error p
    | .ok (_, buf1, idx1) =>
      match rtab.get? pattern_id with
      | none => .error Panic.missingReplacement
      | some replacement =>
        match write_replacement replacement buf1 idx1 with
        | .error p => .error p
        | .ok (buf2, idx2) =>
          match aut.startState with
          | .error e => .ok (.error e)
          | .ok s0 => .ok (.ok ⟨s0, [], buf2, idx2⟩)
  else
    .ok (.ok ⟨sid1, pb1, buf, idx⟩)

/-- One iteration of the `for byte in chunk` loop of `replace`: advance the
automaton state; if the new state is the start state, flush the whole pending
queue to the output and then write the byte directly; otherwise append the
byte to the back of the pending queue and continue with the match handling. -/
def processByte (aut : AcAutomaton) (rtab : List (List Nat)) (st : LoopState)
    (b : Nat) : Except Panic (Except MatchError LoopState) :=
  let sid1 := aut.nextState st.sid b
  if aut.isStart sid1 then
    match drainPotential 0 st.potential_buffer st.buffer st.write_idx with
    | .error p => .error p
    | .ok (pb1, buf1, idx1) =>
      match write_to_buffer buf1 idx1 b with
      | .error p => .error p
      | .ok (buf2, idx2) => .ok (.ok ⟨sid1, pb1, buf2, idx2⟩)
  else
    handleNonStart aut rtab sid1 (st.potential_buffer ++ [b]) st.buffer st.write_idx

/-- The whole `for byte in chunk` loop: process the chunk bytes in order,
propagating a panic or a `MatchError` immediately (the `?` in the loop body
returns from `replace` without touching the remaining bytes). -/
def processChunk (aut : AcAutomaton) (rtab : List (List Nat)) :
    List Nat → LoopState → Except Panic (Except MatchError LoopState)
  | [], st => .ok (.ok st)
  | b :: rest, st =>
    match processByte aut rtab st b with
    | .error p => .error p
    | .ok (.error e) => .ok (.error e)
    | .ok (.ok st1) => processChunk aut rtab rest st1

/-- The per-chunk capacity step at the top of `replace`: if the buffer is
shorter than `chunk.len() + potential_buffer.len()`, it is resized (grown,
zero-filled) to exactly that length; otherwise it is kept as is. -/
def ensured_buffer (r : AhoCorasickReplacer) (chunk : List Nat) : List Nat :=
  if r.buffer.length < chunk.length + r.potential_buffer.length then
    r.buffer ++
      List.replicate (chunk.length + r.potential_buffer.length - r.buffer.length) 0
  else r.buffer

/-- `AhoCorasickReplacer::replace`: ensure output capacity once per chunk, run
the per-byte loop from write index 0, and return the written window
`&buffer[..write_idx]` together with the updated replacer.  (The source
returns `&self.buffer[..write_idx]` when `write_idx > 0` and `&buffer[..0]`
otherwise, which is `buffer[..write_idx]` in every case.) -/
def AhoCorasickReplacer.replace (r : AhoCorasickReplacer) (chunk : List Nat) :
    Except Panic (Except MatchError (List Nat × AhoCorasickReplacer)) :=
  match processChunk r.aut r.replace_with chunk
      ⟨r.sid, r.potential_buffer, ensured_buffer r chunk, 0⟩ with
  | .error p => .error p
  | .ok (.error e) => .ok (.error e)
  | .ok (.ok st) =>
    .ok (.ok (st.buffer.take st.write_idx,
      { r with sid := st.sid, potential_buffer := st.potential_buffer,
               buffer := st.buffer }))

/-- `AhoCorasickReplacer::finish`: if the pending queue is non-empty, return
its full contents (`make_contiguous` only normalises the ring-buffer layout,
so `as_slices().0` is the whole queue, which is not cleared); otherwise return
the empty window `&buffer[..0]`. -/
def AhoCorasickReplacer.finish (r : AhoCorasickReplacer) :
    Except MatchError (List Nat × AhoCorasickReplacer) :=
  if r.potential_buffer.length > 0 then .ok (r.potential_buffer, r)
  else .ok (r.buffer.take 0, r)

/-- Driver for the stream-level claims: a sequence of `replace` calls on
consecutive chunks, concatenating the returned slices and propagating panics
and errors. -/
def runChunks : AhoCorasickReplacer → List (List Nat) →
    Except Panic (Except MatchError (List Nat × AhoCorasickReplacer))
  | r, [] => .ok (.ok ([], r))
  | r, c :: cs =>
    match r.replace c with
    | .error p => .error p
    | .ok (.error e) => .ok (.error e)
    | .ok (.ok (out1, r1)) =>
      match runChunks r1 cs with
      | .error p => .error p
      | .ok (.error e) => .ok (.error e)
      | .ok (.ok (out2, r2)) => .ok (.ok (out1 ++ out2, r2))

namespace SpecReplace

/-- Reference per-byte step, following the spec (§4.2) word by word: advance
the state; on the start state, flush the pending bytes and the byte itself to
the output; on a non-start match state with primary pattern id `p` and
`L = patternLength(p)`, emit the oldest bytes of the pending queue (byte
included) down to `L`, then the replacement for `p`, and reset to the start
state `s0`; otherwise just append the byte to the pending queue.  The result
is (emitted bytes, new state, new pending queue). -/
def step (aut : AcAutomaton) (rtab : List (List Nat)) (s0 : Nat) (sid : Nat)
    (pb : List Nat) (b : Nat) : List Nat × Nat × List Nat :=
  let sid1 := aut.nextState sid b
  if aut.isStart sid1 then (pb ++ [b], sid1, [])
  else
    let pb1 := pb ++ [b]
    if aut.isMatch sid1 then
      let pid := aut.matchPattern sid1
      let L := aut.patternLen pid
      (pb1.take (pb1.length - L) ++ (rtab.get? pid).getD [], s0, [])
    else ([], sid1, pb1)

/-- Reference run over a byte sequence: fold `step`, concatenating the
emitted bytes. -/
def run (aut : AcAutomaton) (rtab : List (List Nat)) (s0 : Nat) :
    List Nat → Nat → List Nat → List Nat × Nat × List Nat
  | [], sid, pb => ([], sid, pb)
  | b :: rest, sid, pb =>
    let s := step aut rtab s0 sid pb b
    let r := run aut rtab s0 rest s.2.1 s.2.2
    (s.1 ++ r.1, r.2)

/-- Reference meaning of the whole stream, following the spec: the input with
every detected pattern occurrence replaced, in arrival order, with the
unresolved pending bytes emitted verbatim at end of stream (§4.5). -/
def stream (aut : AcAutomaton) (rtab : List (List Nat)) (s0 : Nat)
    (input : List Nat) : List Nat :=
  (run aut rtab s0 input s0 []).1 ++ (run aut rtab s0 input s0 []).2.2

end SpecReplace

/-- Concrete automaton for the single pattern "ab" (bytes 97 98) with pattern
id 0, used to instantiate theorems: state 0 is the start state, state 1 means
"just read an a", state 2 is the match state for "ab". -/
def abAut : AcAutomaton where
  nextState s b := if b = 97 then 1 else if s = 1 ∧ b = 98 then 2 else 0
  isStart s := s == 0
  isMatch s := s == 2
  matchPattern _ := 0
  patternLen _ := 2
  startState := .ok 0

/-- Degenerate automaton whose single state is both a start state and a match
state (as happens when an empty pattern is registered: the root recognises
it); contract-compatible since the trailing 0 bytes always equal the empty
pattern and no partial progress ever exists. -/
def bothAut : AcAutomaton where
  nextState _ _ := 0
  isStart _ := true
  isMatch _ := true
  matchPattern _ := 0
  patternLen _ := 0
  startState := .ok 0

/-- Automaton whose start-state acquisition fails, for the error-propagation
claims. -/
def errAut : AcAutomaton where
  nextState _ _ := 0
  isStart _ := false
  isMatch _ := true
  matchPattern _ := 0
  patternLen _ := 0
  startState := .error ⟨5⟩

/-- Fresh replacer over `abAut` with replacement table sending pattern 0
("ab") to "Z" (byte 90). -/
def abReplacer : AhoCorasickReplacer := ⟨abAut, 0, 0, [[90]], [], []⟩

/-- Replacer over `errAut` (built directly, since `new` would fail), for the
error-propagation witnesses. -/
def errReplacer : AhoCorasickReplacer := ⟨errAut, 0, 0, [[]], [], []⟩

/-- Replacer over `abAut` caught mid-match: state 1 (just read an a), pending
queue holding that byte. -/
def pendingReplacer : AhoCorasickReplacer := ⟨abAut, 0, 1, [[90]], [0, 0], [97]⟩

/- ------------------------------------------------------------------
List helpers
------------------------------------------------------------------ -/

theorem take_set_succ : ∀ (l : List Nat) (i c : Nat), i < l.length →
    (l.set i c).take (i + 1) = l.take i ++ [c]
  | _ :: _, 0, _, _ => rfl
  | a :: l, i + 1, c, h => by
    simpa [List.set, List.take] using
      take_set_succ l i c (Nat.lt_of_succ_lt_succ h)

theorem take_append_left : ∀ (l l2 : List Nat) (n : Nat), n ≤ l.length →
    (l ++ l2).take n = l.take n
  | _, _, 0, _ => by simp
  | a :: l, l2, n + 1, h => by
    simpa [List.take] using
      take_append_left l l2 n (Nat.le_of_succ_le_succ h)
  | [], _, n + 1, h => by simp at h

/- ------------------------------------------------------------------
Write-discipline lemmas: every write made with the running-index invariant
(index at most the length, length at least one) succeeds, lands at the index,
and preserves the invariant.
------------------------------------------------------------------ -/

theorem write_to_buffer_ok (buf : List Nat) (idx c : Nat)
    (h1 : idx ≤ buf.length) (h2 : 1 ≤ buf.length) :
    ∃ buf', write_to_buffer buf idx c = .ok (buf', idx + 1) ∧
      buf.length ≤ buf'.length ∧ idx + 1 ≤ buf'.length ∧
      buf'.take (idx + 1) = buf.take idx ++ [c] := by
  unfold write_to_buffer
  by_cases hge : buf.length ≤ idx
  · have hidx : idx = buf.length := Nat.le_antisymm h1 hge
    have hlt : idx < (buf ++ List.replicate buf.length 0).length := by
      simp only [List.length_append, List.length_replicate]; omega
    refine ⟨(buf ++ List.replicate buf.length 0).set idx c, ?_, ?_, ?_, ?_⟩
    · have hlt2 : idx < buf.length + buf.length := by omega
      simp [hge, hlt2]
    · simp
    · simp; omega
    · rw [take_set_succ _ _ _ hlt, take_append_left _ _ idx (by omega)]
  · have hlt : idx < buf.length := Nat.lt_of_not_le hge
    refine ⟨buf.set idx c, ?_, ?_, ?_, ?_⟩
    · simp [hge, hlt]
    · simp
    · simp; omega
    · exact take_set_succ _ _ _ hlt

theorem drainPotential_ok (plen : Nat) : ∀ (pb buf : List Nat) (idx : Nat),
    idx ≤ buf.length → 1 ≤ buf.length →
    ∃ buf', drainPotential plen pb buf idx =
        .ok (pb.drop (pb.length - plen), buf', idx + (pb.length - plen)) ∧
      buf.length ≤ buf'.length ∧ idx + (pb.length - plen) ≤ buf'.length ∧
      buf'.take (idx + (pb.length - plen)) =
        buf.take idx ++ pb.take (pb.length - plen)
  | [], buf, idx, h1, _ => by
    refine ⟨buf, ?_, Nat.le_refl _, ?_, ?_⟩ <;> simp [drainPotential, h1]
  | b :: rest, buf, idx, h1, h2 => by
    unfold drainPotential
    by_cases hstop : rest.length + 1 ≤ plen
    · have hz : (b :: rest).length - plen = 0 := by simp; omega
      refine ⟨buf, ?_, Nat.le_refl _, ?_, ?_⟩ <;> simp [hstop, hz, h1]
    · obtain ⟨buf2, hw, hlen2, hidx2, htake2⟩ := write_to_buffer_ok buf idx b h1 h2
      obtain ⟨buf', hd, hlen', hidx', htake'⟩ :=
        drainPotential_ok plen rest buf2 (idx + 1) hidx2 (by omega)
      have hk : (b :: rest).length - plen = (rest.length - plen) + 1 := by
        simp; omega
      refine ⟨buf', ?_, by omega, by omega, ?_⟩
      · simp only [hstop, if_false, hw, hd, hk]
        have : idx + (rest.length - plen + 1) = idx + 1 + (rest.length - plen) := by
          omega
        simp [List.drop_succ_cons, this]
      · rw [hk, List.take_succ_cons, show idx + (rest.length - plen + 1) =
          idx + 1 + (rest.length - plen) by omega, htake', htake2]
        simp

theorem write_replacement_ok : ∀ (repl buf : List Nat) (idx : Nat),
    idx ≤ buf.length → 1 ≤ buf.length →
    ∃ buf', write_replacement repl buf idx = .ok (buf', idx + repl.length) ∧
      buf.length ≤ buf'.length ∧ idx + repl.length ≤ buf'.length ∧
      buf'.take (idx + repl.length) = buf.take idx ++ repl
  | [], buf, idx, h1, _ => by
    refine ⟨buf, ?_, Nat.le_refl _, ?_, ?_⟩ <;> simp [write_replacement, h1]
  | b :: rest, buf, idx, h1, h2 => by
    unfold write_replacement
    obtain ⟨buf2, hw, hlen2, hidx2, htake2⟩ := write_to_buffer_ok buf idx b h1 h2
    obtain ⟨buf', hd, hlen', hidx', htake'⟩ :=
      write_replacement_ok rest buf2 (idx + 1) hidx2 (by omega)
    refine ⟨buf', ?_, by omega, by simp; omega, ?_⟩
    · rw [hw]
      dsimp only
      rw [hd, show idx + (b :: rest).length = idx + 1 + rest.length from by
        simp; omega]
    · rw [show idx + (b :: rest).length = idx + 1 + rest.length from by
        simp; omega, htake', htake2]
      simp

/- ------------------------------------------------------------------
Per-byte correspondence: under the write invariant, with the start state
available and the replacement table covering every primary pattern id, one
loop iteration of `replace` succeeds and emits exactly the bytes of the
reference step, updating state and pending queue identically.
------------------------------------------------------------------ -/

theorem processByte_spec (aut : AcAutomaton) (rtab : List (List Nat)) (s0 : Nat)
    (st : LoopState) (b : Nat)
    (hstart : aut.startState = .ok s0)
    (hcov : ∀ s, aut.isMatch s = true → aut.matchPattern s < rtab.length)
    (h1 : st.write_idx ≤ st.buffer.length) (h2 : 1 ≤ st.buffer.length) :
    ∃ st1, processByte aut rtab st b = .ok (.ok st1) ∧
      st1.sid = (SpecReplace.step aut rtab s0 st.sid st.potential_buffer b).2.1 ∧
      st1.potential_buffer =
        (SpecReplace.step aut rtab s0 st.sid st.potential_buffer b).2.2 ∧
      st1.buffer.take st1.write_idx =
        st.buffer.take st.write_idx ++
          (SpecReplace.step aut rtab s0 st.sid st.potential_buffer b).1 ∧
      st1.write_idx ≤ st1.buffer.length ∧ st.buffer.length ≤ st1.buffer.length := by
  by_cases hs : aut.isStart (aut.nextState st.sid b) = true
  · obtain ⟨buf1, hd, hlen1, hidx1, htake1⟩ :=
      drainPotential_ok 0 st.potential_buffer st.buffer st.write_idx h1 h2
    simp only [Nat.sub_zero, List.drop_length, List.take_length] at hd hidx1 htake1
    obtain ⟨buf2, hw, hlen2, hidx2, htake2⟩ :=
      write_to_buffer_ok buf1 (st.write_idx + st.potential_buffer.length) b
        hidx1 (by omega)
    refine ⟨⟨aut.nextState st.sid b, [], buf2,
      st.write_idx + st.potential_buffer.length + 1⟩, ?_, ?_, ?_, ?_, ?_, ?_⟩
    · simp only [processByte, hs, if_true]
      rw [hd]
      dsimp only
      rw [hw]
    · simp [SpecReplace.step, hs]
    · simp [SpecReplace.step, hs]
    · simp only [SpecReplace.step, hs, if_true]
      rw [htake2, htake1]
      simp
    · exact hidx2
    · show st.buffer.length ≤ buf2.length
      omega
  · by_cases hm : aut.isMatch (aut.nextState st.sid b) = true
    · have hpid : aut.matchPattern (aut.nextState st.sid b) < rtab.length :=
        hcov _ hm
      obtain ⟨repl, hrepl⟩ : ∃ repl,
          rtab.get? (aut.matchPattern (aut.nextState st.sid b)) = some repl := by
        refine ⟨rtab.get ⟨_, hpid⟩, ?_⟩
        exact List.get?_eq_get hpid
      obtain ⟨buf1, hd, hlen1, hidx1, htake1⟩ :=
        drainPotential_ok (aut.patternLen (aut.matchPattern (aut.nextState st.sid b)))
          (st.potential_buffer ++ [b]) st.buffer st.write_idx h1 h2
      obtain ⟨buf2, hw, hlen2, hidx2, htake2⟩ :=
        write_replacement_ok repl buf1 _ hidx1 (by omega)
      refine ⟨⟨s0, [], buf2,
        st.write_idx +
          ((st.potential_buffer ++ [b]).length -
            aut.patternLen (aut.matchPattern (aut.nextState st.sid b))) +
          repl.length⟩, ?_, ?_, ?_, ?_, ?_, ?_⟩
      · simp only [processByte, handleNonStart, hs, hm, if_true, if_false,
          Bool.false_eq_true]
        rw [hd]
        dsimp only
        rw [hrepl]
        dsimp only
        rw [hw]
        dsimp only
        rw [hstart]
      · simp [SpecReplace.step, hs, hm]
      · simp [SpecReplace.step, hs, hm]
      · simp only [SpecReplace.step, hs, hm, if_true, if_false,
          Bool.false_eq_true]
        rw [htake2, htake1, hrepl]
        simp
      · exact hidx2
      · show st.buffer.length ≤ buf2.length
        omega
    · refine ⟨⟨aut.nextState st.sid b, st.potential_buffer ++ [b], st.buffer,
        st.write_idx⟩, ?_, ?_, ?_, ?_, h1, Nat.le_refl _⟩
      · simp only [processByte, handleNonStart, hs, hm, if_false,
          Bool.false_eq_true]
      · simp [SpecReplace.step, hs, hm]
      · simp [SpecReplace.step, hs, hm]
      · simp [SpecReplace.step, hs, hm]

theorem processChunk_spec (aut : AcAutomaton) (rtab : List (List Nat)) (s0 : Nat)
    (hstart : aut.startState = .ok s0)
    (hcov : ∀ s, aut.isMatch s = true → aut.matchPattern s < rtab.length) :
    ∀ (chunk : List Nat) (st : LoopState),
    st.write_idx ≤ st.buffer.length → 1 ≤ st.buffer.length →
    ∃ st1, processChunk aut rtab chunk st = .ok (.ok st1) ∧
      st1.sid = (SpecReplace.run aut rtab s0 chunk st.sid st.potential_buffer).2.1 ∧
      st1.potential_buffer =
        (SpecReplace.run aut rtab s0 chunk st.sid st.potential_buffer).2.2 ∧
      st1.buffer.take st1.write_idx =
        st.buffer.take st.write_idx ++
          (SpecReplace.run aut rtab s0 chunk st.sid st.potential_buffer).1 ∧
      st1.write_idx ≤ st1.buffer.length ∧ st.buffer.length ≤ st1.buffer.length
  | [], st, h1, h2 =>
    ⟨st, rfl, rfl, rfl, by simp [SpecReplace.run], h1, Nat.le_refl _⟩
  | b :: rest, st, h1, h2 => by
    obtain ⟨st1, hpb, hsid1, hpend1, htake1, hi1, hi2⟩ :=
      processByte_spec aut rtab s0 st b hstart hcov h1 h2
    obtain ⟨st2, hpc, hsid2, hpend2, htake2, hj1, hj2⟩ :=
      processChunk_spec aut rtab s0 hstart hcov rest st1 hi1 (by omega)
    refine ⟨st2, ?_, ?_, ?_, ?_, hj1, by omega⟩
    · simp only [processChunk]
      rw [hpb]
      exact hpc
    · rw [hsid2, hsid1, hpend1]
      simp [SpecReplace.run]
    · rw [hpend2, hsid1, hpend1]
      simp [SpecReplace.run]
    · rw [htake2, htake1, hsid1, hpend1]
      simp [SpecReplace.run]

theorem spec_run_append (aut : AcAutomaton) (rtab : List (List Nat)) (s0 : Nat) :
    ∀ (xs ys : List Nat) (sid : Nat) (pb : List Nat),
    SpecReplace.run aut rtab s0 (xs ++ ys) sid pb =
      ((SpecReplace.run aut rtab s0 xs sid pb).1 ++
        (SpecReplace.run aut rtab s0 ys
          (SpecReplace.run aut rtab s0 xs sid pb).2.1
          (SpecReplace.run aut rtab s0 xs sid pb).2.2).1,
       (SpecReplace.run aut rtab s0 ys
          (SpecReplace.run aut rtab s0 xs sid pb).2.1
          (SpecReplace.run aut rtab s0 xs sid pb).2.2).2)
  | [], ys, sid, pb => by simp [SpecReplace.run]
  | x :: xs, ys, sid, pb => by
    have ih := spec_run_append aut rtab s0 xs ys
      (SpecReplace.step aut rtab s0 sid pb x).2.1
      (SpecReplace.step aut rtab s0 sid pb x).2.2
    simp only [List.cons_append, SpecReplace.run, List.append_eq] at ih ⊢
    rw [ih]
    simp [List.append_assoc]

theorem ensured_buffer_length (r : AhoCorasickReplacer) (chunk : List Nat) :
    chunk.length + r.potential_buffer.length ≤ (ensured_buffer r chunk).length := by
  unfold ensured_buffer
  by_cases h : r.buffer.length < chunk.length + r.potential_buffer.length
  · simp only [h, if_true, List.length_append, List.length_replicate]
    omega
  · simp only [h, if_false]
    omega

theorem replace_spec (r : AhoCorasickReplacer) (s0 : Nat) (chunk : List Nat)
    (hstart : r.aut.startState = .ok s0)
    (hcov : ∀ s, r.aut.isMatch s = true →
      r.aut.matchPattern s < r.replace_with.length) :
    ∃ r', r.replace chunk = .ok (.ok
        ((SpecReplace.run r.aut r.replace_with s0 chunk r.sid
          r.potential_buffer).1, r')) ∧
      r'.aut = r.aut ∧ r'.kind = r.kind ∧ r'.replace_with = r.replace_with ∧
      r'.sid = (SpecReplace.run r.aut r.replace_with s0 chunk r.sid
        r.potential_buffer).2.1 ∧
      r'.potential_buffer = (SpecReplace.run r.aut r.replace_with s0 chunk r.sid
        r.potential_buffer).2.2 := by
  cases chunk with
  | nil =>
    refine ⟨{ r with buffer := ensured_buffer r [] }, ?_, rfl, rfl, rfl, rfl, rfl⟩
    simp [AhoCorasickReplacer.replace, processChunk, SpecReplace.run]
  | cons b rest =>
    have hbuf := ensured_buffer_length r (b :: rest)
    obtain ⟨st1, hpc, hsid1, hpend1, htake1, hi1, hi2⟩ :=
      processChunk_spec r.aut r.replace_with s0 hstart hcov (b :: rest)
        ⟨r.sid, r.potential_buffer, ensured_buffer r (b :: rest), 0⟩
        (Nat.zero_le _) (by simp at hbuf ⊢; omega)
    refine ⟨{ r with
        sid := st1.sid,
        potential_buffer := st1.potential_buffer,
        buffer := st1.buffer }, ?_, rfl, rfl, rfl, hsid1, hpend1⟩
    unfold AhoCorasickReplacer.replace
    rw [hpc]
    dsimp only
    rw [htake1]
    simp

theorem runChunks_spec (aut : AcAutomaton) (rtab : List (List Nat)) (s0 : Nat)
    (hstart : aut.startState = .ok s0)
    (hcov : ∀ s, aut.isMatch s = true → aut.matchPattern s < rtab.length) :
    ∀ (chunks : List (List Nat)) (r : AhoCorasickReplacer),
    r.aut = aut → r.replace_with = rtab →
    ∃ r', runChunks r chunks = .ok (.ok
        ((SpecReplace.run aut rtab s0 chunks.flatten r.sid
          r.potential_buffer).1, r')) ∧
      r'.aut = aut ∧ r'.replace_with = rtab ∧
      r'.sid = (SpecReplace.run aut rtab s0 chunks.flatten r.sid
        r.potential_buffer).2.1 ∧
      r'.potential_buffer = (SpecReplace.run aut rtab s0 chunks.flatten r.sid
        r.potential_buffer).2.2
  | [], r, ha, ht => by
    refine ⟨r, ?_, ha, ht, ?_, ?_⟩ <;> simp [runChunks, SpecReplace.run]
  | c :: cs, r, ha, ht => by
    obtain ⟨r1, hrep, ha1, hk1, ht1, hsid1, hpend1⟩ :=
      replace_spec r s0 c (by rw [ha]; exact hstart)
        (by rw [ha, ht]; exact hcov)
    rw [ha, ht] at hrep hsid1 hpend1
    obtain ⟨r2, hrun, ha2, ht2, hsid2, hpend2⟩ :=
      runChunks_spec aut rtab s0 hstart hcov cs r1 (ha1.trans ha) (ht1.trans ht)
    rw [hsid1, hpend1] at hrun hsid2 hpend2
    refine ⟨r2, ?_, ha2, ht2, ?_, ?_⟩
    · simp only [runChunks]
      rw [hrep]
      dsimp only
      rw [hrun]
      dsimp only
      rw [List.flatten_cons, spec_run_append aut rtab s0 c cs.flatten]
    · rw [hsid2, List.flatten_cons, spec_run_append aut rtab s0 c cs.flatten]
    · rw [hpend2, List.flatten_cons, spec_run_append aut rtab s0 c cs.flatten]

/- ------------------------------------------------------------------
No-panic chain: under the write invariant every write is in bounds, so one
loop iteration ends in a successful state, a propagated automaton error or
the (write-unrelated) missing-table-entry panic, never in the out-of-bounds
write panic.
------------------------------------------------------------------ -/

theorem processByte_no_oob (aut : AcAutomaton) (rtab : List (List Nat))
    (st : LoopState) (b : Nat)
    (h1 : st.write_idx ≤ st.buffer.length) (h2 : 1 ≤ st.buffer.length) :
    (∃ st1, processByte aut rtab st b = .ok (.ok st1) ∧
      st1.write_idx ≤ st1.buffer.length ∧ 1 ≤ st1.buffer.length) ∨
    (∃ e, processByte aut rtab st b = .ok (.error e)) ∨
    processByte aut rtab st b = .error Panic.missingReplacement := by
  by_cases hs : aut.isStart (aut.nextState st.sid b) = true
  · obtain ⟨buf1, hd, hlen1, hidx1, htake1⟩ :=
      drainPotential_ok 0 st.potential_buffer st.buffer st.write_idx h1 h2
    obtain ⟨buf2, hw, hlen2, hidx2, htake2⟩ :=
      write_to_buffer_ok buf1 (st.write_idx + (st.potential_buffer.length - 0)) b
        hidx1 (by omega)
    left
    refine ⟨⟨aut.nextState st.sid b,
      st.potential_buffer.drop (st.potential_buffer.length - 0), buf2,
      st.write_idx + (st.potential_buffer.length - 0) + 1⟩, ?_, hidx2,
      show 1 ≤ buf2.length by omega⟩
    simp only [processByte, hs, if_true]
    rw [hd]
    dsimp only
    rw [hw]
  · by_cases hm : aut.isMatch (aut.nextState st.sid b) = true
    · obtain ⟨buf1, hd, hlen1, hidx1, htake1⟩ :=
        drainPotential_ok
          (aut.patternLen (aut.matchPattern (aut.nextState st.sid b)))
          (st.potential_buffer ++ [b]) st.buffer st.write_idx h1 h2
      cases hget : rtab.get? (aut.matchPattern (aut.nextState st.sid b)) with
      | none =>
        right; right
        simp only [processByte, handleNonStart, hs, hm, if_true, if_false,
          Bool.false_eq_true]
        rw [hd]
        dsimp only
        rw [hget]
      | some repl =>
        obtain ⟨buf2, hw, hlen2, hidx2, htake2⟩ :=
          write_replacement_ok repl buf1 _ hidx1 (by omega)
        cases hss : aut.startState with
        | error e =>
          right; left
          refine ⟨e, ?_⟩
          simp only [processByte, handleNonStart, hs, hm, if_true, if_false,
            Bool.false_eq_true]
          rw [hd]
          dsimp only
          rw [hget]
          dsimp only
          rw [hw]
          dsimp only
          rw [hss]
        | ok s0 =>
          left
          refine ⟨⟨s0, [], buf2, _⟩, ?_, hidx2, show 1 ≤ buf2.length by omega⟩
          simp only [processByte, handleNonStart, hs, hm, if_true, if_false,
            Bool.false_eq_true]
          rw [hd]
          dsimp only
          rw [hget]
          dsimp only
          rw [hw]
          dsimp only
          rw [hss]
    · left
      refine ⟨⟨aut.nextState st.sid b, st.potential_buffer ++ [b], st.buffer,
        st.write_idx⟩, ?_, h1, h2⟩
      simp only [processByte, handleNonStart, hs, hm, if_false,
        Bool.false_eq_true]

theorem processChunk_no_oob (aut : AcAutomaton) (rtab : List (List Nat)) :
    ∀ (chunk : List Nat) (st : LoopState),
    st.write_idx ≤ st.buffer.length → 1 ≤ st.buffer.length →
    (∃ st1, processChunk aut rtab chunk st = .ok (.ok st1)) ∨
    (∃ e, processChunk aut rtab chunk st = .ok (.error e)) ∨
    processChunk aut rtab chunk st = .error Panic.missingReplacement
  | [], st, h1, h2 => Or.inl ⟨st, rfl⟩
  | b :: rest, st, h1, h2 => by
    rcases processByte_no_oob aut rtab st b h1 h2 with
      ⟨st1, hok, hj1, hj2⟩ | ⟨e, herr⟩ | hpanic
    · have ih := processChunk_no_oob aut rtab rest st1 hj1 hj2
      rcases ih with ⟨st2, h⟩ | ⟨e, h⟩ | h
      · left; exact ⟨st2, by simp only [processChunk]; rw [hok]; exact h⟩
      · right; left; exact ⟨e, by simp only [processChunk]; rw [hok]; exact h⟩
      · right; right
        simp only [processChunk]
        rw [hok]
        exact h
    · right; left
      exact ⟨e, by simp only [processChunk]; rw [herr]⟩
    · right; right
      simp only [processChunk]
      rw [hpanic]

/- ------------------------------------------------------------------
Error-origin chain: the only `MatchError` a loop iteration can surface is the
one returned by the automaton adapter when re-acquiring the start state after
a match.
------------------------------------------------------------------ -/

theorem processByte_error_start (aut : AcAutomaton) (rtab : List (List Nat))
    (st : LoopState) (b : Nat) (e : MatchError)
    (h : processByte aut rtab st b = .ok (.error e)) :
    aut.startState = .error e := by
  by_cases hs : aut.isStart (aut.nextState st.sid b) = true
  · simp only [processByte, hs, if_true] at h
    cases hd : drainPotential 0 st.potential_buffer st.buffer st.write_idx with
    | error p => rw [hd] at h; simp at h
    | ok v =>
      obtain ⟨pb1, buf1, idx1⟩ := v
      rw [hd] at h
      dsimp only at h
      cases hw : write_to_buffer buf1 idx1 b with
      | error p => rw [hw] at h; simp at h
      | ok w =>
        obtain ⟨buf2, idx2⟩ := w
        rw [hw] at h
        simp at h
  · simp only [processByte, handleNonStart, hs, if_false,
      Bool.false_eq_true] at h
    by_cases hm : aut.isMatch (aut.nextState st.sid b) = true
    · simp only [hm, if_true] at h
      cases hd : drainPotential
          (aut.patternLen (aut.matchPattern (aut.nextState st.sid b)))
          (st.potential_buffer ++ [b]) st.buffer st.write_idx with
      | error p => rw [hd] at h; simp at h
      | ok v =>
        obtain ⟨pb1, buf1, idx1⟩ := v
        rw [hd] at h
        dsimp only at h
        cases hget : rtab.get? (aut.matchPattern (aut.nextState st.sid b)) with
        | none => rw [hget] at h; simp at h
        | some repl =>
          rw [hget] at h
          dsimp only at h
          cases hw : write_replacement repl buf1 idx1 with
          | error p => rw [hw] at h; simp at h
          | ok w =>
            obtain ⟨buf2, idx2⟩ := w
            rw [hw] at h
            dsimp only at h
            cases hss : aut.startState with
            | error e2 =>
              rw [hss] at h
              simp only [Except.ok.injEq, Except.error.injEq] at h
              rw [h]
            | ok s0 => rw [hss] at h; simp at h
    · simp only [hm, if_false, Bool.false_eq_true] at h
      simp at h

theorem processChunk_error_start (aut : AcAutomaton) (rtab : List (List Nat)) :
    ∀ (chunk : List Nat) (st : LoopState) (e : MatchError),
    processChunk aut rtab chunk st = .ok (.error e) → aut.startState = .error e
  | [], st, e, h => by simp [processChunk] at h
  | b :: rest, st, e, h => by
    rw [processChunk] at h
    cases hpb : processByte aut rtab st b with
    | error p => rw [hpb] at h; simp at h
    | ok v =>
      cases v with
      | error e2 =>
        rw [hpb] at h
        simp only [Except.ok.injEq, Except.error.injEq] at h
        rw [h] at hpb
        exact processByte_error_start aut rtab st b e hpb
      | ok st1 =>
        rw [hpb] at h
        exact processChunk_error_start aut rtab rest st1 e h

/- ------------------------------------------------------------------
Start-state invariant chain: after any successful loop iteration, a
non-empty pending queue means the stored state is not the start state.
------------------------------------------------------------------ -/

theorem drainPotential_le (plen : Nat) : ∀ (pb buf : List Nat) (idx : Nat)
    (res : List Nat × List Nat × Nat),
    drainPotential plen pb buf idx = .ok res → res.1.length ≤ plen
  | [], buf, idx, res, h => by
    simp only [drainPotential, Except.ok.injEq] at h
    rw [← h]
    exact Nat.zero_le _
  | b :: rest, buf, idx, res, h => by
    rw [drainPotential] at h
    by_cases hstop : rest.length + 1 ≤ plen
    · rw [if_pos hstop] at h
      simp only [Except.ok.injEq] at h
      rw [← h]
      simpa using hstop
    · rw [if_neg hstop] at h
      cases hw : write_to_buffer buf idx b with
      | error p => rw [hw] at h; simp at h
      | ok w =>
        obtain ⟨buf2, idx2⟩ := w
        rw [hw] at h
        exact drainPotential_le plen rest buf2 idx2 res h

theorem processByte_start_inv (aut : AcAutomaton) (rtab : List (List Nat))
    (st : LoopState) (b : Nat) (st1 : LoopState)
    (h : processByte aut rtab st b = .ok (.ok st1)) :
    st1.potential_buffer ≠ [] → aut.isStart st1.sid = false := by
  intro hne
  by_cases hs : aut.isStart (aut.nextState st.sid b) = true
  · exfalso
    simp only [processByte, hs, if_true] at h
    cases hd : drainPotential 0 st.potential_buffer st.buffer st.write_idx with
    | error p => rw [hd] at h; simp at h
    | ok v =>
      obtain ⟨pb1, buf1, idx1⟩ := v
      have hle := drainPotential_le 0 st.potential_buffer st.buffer st.write_idx
        (pb1, buf1, idx1) hd
      rw [hd] at h
      dsimp only at h
      cases hw : write_to_buffer buf1 idx1 b with
      | error p => rw [hw] at h; simp at h
      | ok w =>
        obtain ⟨buf2, idx2⟩ := w
        rw [hw] at h
        simp only [Except.ok.injEq] at h
        apply hne
        rw [← h]
        simpa using hle
  · simp only [processByte, handleNonStart, hs, if_false,
      Bool.false_eq_true] at h
    by_cases hm : aut.isMatch (aut.nextState st.sid b) = true
    · exfalso
      simp only [hm, if_true] at h
      cases hd : drainPotential
          (aut.patternLen (aut.matchPattern (aut.nextState st.sid b)))
          (st.potential_buffer ++ [b]) st.buffer st.write_idx with
      | error p => rw [hd] at h; simp at h
      | ok v =>
        obtain ⟨pb1, buf1, idx1⟩ := v
        rw [hd] at h
        dsimp only at h
        cases hget : rtab.get? (aut.matchPattern (aut.nextState st.sid b)) with
        | none => rw [hget] at h; simp at h
        | some repl =>
          rw [hget] at h
          dsimp only at h
          cases hw : write_replacement repl buf1 idx1 with
          | error p => rw [hw] at h; simp at h
          | ok w =>
            obtain ⟨buf2, idx2⟩ := w
            rw [hw] at h
            dsimp only at h
            cases hss : aut.startState with
            | error e2 => rw [hss] at h; simp at h
            | ok s0 =>
              rw [hss] at h
              simp only [Except.ok.injEq] at h
              apply hne
              rw [← h]
    · simp only [hm, if_false, Bool.false_eq_true, Except.ok.injEq] at h
      rw [← h]
      exact Bool.not_eq_true _ ▸ eq_false_of_ne_true hs

theorem processChunk_start_inv (aut : AcAutomaton) (rtab : List (List Nat)) :
    ∀ (chunk : List Nat) (st st1 : LoopState),
    processChunk aut rtab chunk st = .ok (.ok st1) →
    (st.potential_buffer ≠ [] → aut.isStart st.sid = false) →
    (st1.potential_buffer ≠ [] → aut.isStart st1.sid = false)
  | [], st, st1, h, hinv => by
    simp only [processChunk, Except.ok.injEq] at h
    rw [← h]
    exact hinv
  | b :: rest, st, st1, h, hinv => by
    rw [processChunk] at h
    cases hpb : processByte aut rtab st b with
    | error p => rw [hpb] at h; simp at h
    | ok v =>
      cases v with
      | error e => rw [hpb] at h; simp at h
      | ok st2 =>
        rw [hpb] at h
        exact processChunk_start_inv aut rtab rest st2 st1 h
          (processByte_start_inv aut rtab st b st2 hpb)

/-- Helper: `finish` always succeeds and returns exactly the pending-queue
contents (the empty window `buffer[..0]` coincides with the empty pending
queue in the second branch), leaving the replacer unchanged. -/
theorem finish_eq (r : AhoCorasickReplacer) :
    r.finish = .ok (r.potential_buffer, r) := by
  unfold AhoCorasickReplacer.finish
  cases hpb : r.potential_buffer with
  | nil => simp
  | cons x xs => simp

/- ==================================================================
Claim theorems
================================================================== -/

/-- C1: for every sequence of `replace` calls followed by one `finish` call,
starting from a successfully constructed replacer, the concatenation of all
returned slices equals the concatenated input chunks with every pattern
occurrence detected by the automaton replaced by its replacement bytes, in
arrival order — the latter formalised by the reference stream semantics
`SpecReplace.stream`, which follows the algorithm of spec §4.2/§4.5 word by
word.  The hypotheses are that acquiring the unanchored start state succeeds
(otherwise construction already fails) and that the replacement table has an
entry for every primary pattern id (spec §6: one entry per pattern id). -/
theorem replacer_stream_matches_spec (aut : AcAutomaton) (kind : Nat)
    (rtab : List (List Nat)) (s0 : Nat) (chunks : List (List Nat))
    (hstart : aut.startState = .ok s0)
    (hcov : ∀ s, aut.isMatch s = true → aut.matchPattern s < rtab.length) :
    ∃ r0 out r1 fin r2,
      AhoCorasickReplacer.new aut kind rtab = .ok r0 ∧
      runChunks r0 chunks = .ok (.ok (out, r1)) ∧
      r1.finish = .ok (fin, r2) ∧
      out ++ fin = SpecReplace.stream aut rtab s0 chunks.flatten := by
  obtain ⟨r1, hrun, ha1, ht1, hsid1, hpend1⟩ :=
    runChunks_spec aut rtab s0 hstart hcov chunks
      ⟨aut, kind, s0, rtab, [], []⟩ rfl rfl
  refine ⟨⟨aut, kind, s0, rtab, [], []⟩, _, r1, r1.potential_buffer, r1, ?_,
    hrun, finish_eq r1, ?_⟩
  · unfold AhoCorasickReplacer.new
    rw [hstart]
  · rw [hpend1]
    rfl

/-- C1 witness: pattern "ab" mapped to "Z", chunks "a" and "ab". -/
theorem replacer_stream_matches_spec_witness :
    ∃ r0 out r1 fin r2,
      AhoCorasickReplacer.new abAut 0 [[90]] = .ok r0 ∧
      runChunks r0 [[97], [97, 98]] = .ok (.ok (out, r1)) ∧
      r1.finish = .ok (fin, r2) ∧
      out ++ fin = SpecReplace.stream abAut [[90]] 0 [[97], [97, 98]].flatten :=
  replacer_stream_matches_spec abAut 0 [[90]] 0 [[97], [97, 98]] rfl
    (fun _ _ => Nat.zero_lt_one)

/-- C3: two fresh replacers over the same automaton and table, fed two chunk
partitions of the same byte stream, produce the same concatenated output
(`replace` slices plus `finish` slice). -/
theorem chunk_partition_independent (aut : AcAutomaton) (kind : Nat)
    (rtab : List (List Nat)) (s0 : Nat) (chunks1 chunks2 : List (List Nat))
    (hstart : aut.startState = .ok s0)
    (hcov : ∀ s, aut.isMatch s = true → aut.matchPattern s < rtab.length)
    (hflat : chunks1.flatten = chunks2.flatten) :
    ∃ r0 out1 r1 fin1 r1x out2 r2 fin2 r2x,
      AhoCorasickReplacer.new aut kind rtab = .ok r0 ∧
      runChunks r0 chunks1 = .ok (.ok (out1, r1)) ∧
      r1.finish = .ok (fin1, r1x) ∧
      runChunks r0 chunks2 = .ok (.ok (out2, r2)) ∧
      r2.finish = .ok (fin2, r2x) ∧
      out1 ++ fin1 = out2 ++ fin2 := by
  obtain ⟨r1, hrun1, ha1, ht1, hsid1, hpend1⟩ :=
    runChunks_spec aut rtab s0 hstart hcov chunks1
      ⟨aut, kind, s0, rtab, [], []⟩ rfl rfl
  obtain ⟨r2, hrun2, ha2, ht2, hsid2, hpend2⟩ :=
    runChunks_spec aut rtab s0 hstart hcov chunks2
      ⟨aut, kind, s0, rtab, [], []⟩ rfl rfl
  refine ⟨⟨aut, kind, s0, rtab, [], []⟩, _, r1, r1.potential_buffer, r1, _, r2,
    r2.potential_buffer, r2, ?_, hrun1, finish_eq r1, hrun2, finish_eq r2, ?_⟩
  · unfold AhoCorasickReplacer.new
    rw [hstart]
  · rw [hpend1, hpend2, hflat]

/-- C3 witness: "aab" fed as one chunk and byte by byte. -/
theorem chunk_partition_independent_witness :
    ∃ r0 out1 r1 fin1 r1x out2 r2 fin2 r2x,
      AhoCorasickReplacer.new abAut 0 [[90]] = .ok r0 ∧
      runChunks r0 [[97, 97, 98]] = .ok (.ok (out1, r1)) ∧
      r1.finish = .ok (fin1, r1x) ∧
      runChunks r0 [[97], [97], [98]] = .ok (.ok (out2, r2)) ∧
      r2.finish = .ok (fin2, r2x) ∧
      out1 ++ fin1 = out2 ++ fin2 :=
  chunk_partition_independent abAut 0 [[90]] 0 [[97, 97, 98]]
    [[97], [97], [98]] rfl (fun _ _ => Nat.zero_lt_one) rfl

/-- C2 counterexample: the claim quantifies over every byte whose transition
lands in a match state, but the code checks `is_start` first: on an automaton
whose single state is both a start state and a match state (empty pattern),
the byte is written verbatim and no replacement bytes are written, refuting
the claimed truncate-clear-replace-reset behaviour at this input. -/
theorem match_state_step_claim_counterexample :
    bothAut.isMatch (bothAut.nextState 0 97) = true ∧
    processByte bothAut [[90]] ⟨0, [], [0], 0⟩ 97 = .ok (.ok ⟨0, [], [97], 1⟩) ∧
    ¬ (∃ st1, processByte bothAut [[90]] ⟨0, [], [0], 0⟩ 97 = .ok (.ok st1) ∧
        st1.buffer.take st1.write_idx = [90]) := by
  refine ⟨rfl, rfl, ?_⟩
  rintro ⟨st1, he, ht⟩
  have h2 : processByte bothAut [[90]] ⟨0, [], [0], 0⟩ 97 =
      .ok (.ok ⟨0, [], [97], 1⟩) := rfl
  rw [h2] at he
  have h3 : (⟨0, [], [97], 1⟩ : LoopState) = st1 :=
    Except.ok.inj (Except.ok.inj he)
  rw [← h3] at ht
  exact absurd ht (by decide)

/-- C2 (amended): for every byte whose transition lands in a match state that
is not the start state, with primary pattern id `p` and `L = patternLength p`:
the oldest pending bytes beyond `L` (byte included, appended first) are
written to output verbatim, the pending queue is cleared, the replacement
bytes for `p` are written, and the state is reset to the unanchored start
state. -/
theorem nonstart_match_truncate_replace_reset (aut : AcAutomaton)
    (rtab : List (List Nat)) (s0 : Nat) (st : LoopState) (b : Nat)
    (repl : List Nat)
    (hns : aut.isStart (aut.nextState st.sid b) = false)
    (hm : aut.isMatch (aut.nextState st.sid b) = true)
    (hstart : aut.startState = .ok s0)
    (hrepl : rtab.get? (aut.matchPattern (aut.nextState st.sid b)) = some repl)
    (h1 : st.write_idx ≤ st.buffer.length) (h2 : 1 ≤ st.buffer.length) :
    ∃ buf2, processByte aut rtab st b = .ok (.ok ⟨s0, [], buf2,
        st.write_idx +
          ((st.potential_buffer ++ [b]).length -
            aut.patternLen (aut.matchPattern (aut.nextState st.sid b))) +
          repl.length⟩) ∧
      buf2.take (st.write_idx +
          ((st.potential_buffer ++ [b]).length -
            aut.patternLen (aut.matchPattern (aut.nextState st.sid b))) +
          repl.length) =
        st.buffer.take st.write_idx ++
          (st.potential_buffer ++ [b]).take
            ((st.potential_buffer ++ [b]).length -
              aut.patternLen (aut.matchPattern (aut.nextState st.sid b))) ++
          repl := by
  obtain ⟨buf1, hd, hlen1, hidx1, htake1⟩ :=
    drainPotential_ok (aut.patternLen (aut.matchPattern (aut.nextState st.sid b)))
      (st.potential_buffer ++ [b]) st.buffer st.write_idx h1 h2
  obtain ⟨buf2, hw, hlen2, hidx2, htake2⟩ :=
    write_replacement_ok repl buf1 _ hidx1 (by omega)
  refine ⟨buf2, ?_, ?_⟩
  · simp only [processByte, handleNonStart, hns, hm, if_true, if_false,
      Bool.false_eq_true]
    rw [hd]
    dsimp only
    rw [hrepl]
    dsimp only
    rw [hw]
    dsimp only
    rw [hstart]
  · rw [htake2, htake1]

/-- C2 (amended) witness: mid-match state for "ab" receiving the final b. -/
theorem nonstart_match_truncate_replace_reset_witness :
    ∃ buf2, processByte abAut [[90]] ⟨1, [97], [0, 0], 0⟩ 98 =
        .ok (.ok ⟨0, [], buf2,
          0 + (([97] ++ [98]).length - abAut.patternLen (abAut.matchPattern
            (abAut.nextState 1 98))) + [90].length⟩) ∧
      buf2.take (0 + (([97] ++ [98]).length - abAut.patternLen
          (abAut.matchPattern (abAut.nextState 1 98))) + [90].length) =
        ([0, 0] : List Nat).take 0 ++
          ([97] ++ [98]).take (([97] ++ [98]).length - abAut.patternLen
            (abAut.matchPattern (abAut.nextState 1 98))) ++ [90] :=
  nonstart_match_truncate_replace_reset abAut [[90]] 0 ⟨1, [97], [0, 0], 0⟩ 98
    [90] rfl rfl rfl rfl (by decide) (by decide)

/-- C4: a byte whose transition lands in the start state causes the whole
pending queue to be flushed to output in FIFO order followed by the byte
itself, emptying the queue; a byte landing in a non-start state is appended
to the back of the pending queue (the per-byte step then continues with the
match handling on the appended queue; in particular, when the new state is
also not a match state, the appended queue is the entire effect). -/
theorem byte_routing_start_flush_else_append (aut : AcAutomaton)
    (rtab : List (List Nat)) (st : LoopState) (b : Nat)
    (h1 : st.write_idx ≤ st.buffer.length) (h2 : 1 ≤ st.buffer.length) :
    (aut.isStart (aut.nextState st.sid b) = true →
      ∃ buf2, processByte aut rtab st b = .ok (.ok ⟨aut.nextState st.sid b, [],
          buf2, st.write_idx + st.potential_buffer.length + 1⟩) ∧
        buf2.take (st.write_idx + st.potential_buffer.length + 1) =
          st.buffer.take st.write_idx ++ st.potential_buffer ++ [b]) ∧
    (aut.isStart (aut.nextState st.sid b) = false →
      processByte aut rtab st b = handleNonStart aut rtab
        (aut.nextState st.sid b) (st.potential_buffer ++ [b]) st.buffer
        st.write_idx ∧
      (aut.isMatch (aut.nextState st.sid b) = false →
        processByte aut rtab st b = .ok (.ok ⟨aut.nextState st.sid b,
          st.potential_buffer ++ [b], st.buffer, st.write_idx⟩))) := by
  constructor
  · intro hs
    obtain ⟨buf1, hd, hlen1, hidx1, htake1⟩ :=
      drainPotential_ok 0 st.potential_buffer st.buffer st.write_idx h1 h2
    simp only [Nat.sub_zero, List.drop_length, List.take_length] at hd hidx1 htake1
    obtain ⟨buf2, hw, hlen2, hidx2, htake2⟩ :=
      write_to_buffer_ok buf1 (st.write_idx + st.potential_buffer.length) b
        hidx1 (by omega)
    refine ⟨buf2, ?_, ?_⟩
    · simp only [processByte, hs, if_true]
      rw [hd]
      dsimp only
      rw [hw]
    · rw [htake2, htake1, List.append_assoc]
  · intro hs
    constructor
    · simp only [processByte, hs, if_false, Bool.false_eq_true]
    · intro hm
      simp only [processByte, handleNonStart, hs, hm, if_false,
        Bool.false_eq_true]

/-- C4 witness: from the mid-match state for "ab", the byte x (120) falls
back to the start state and flushes the pending a (97) followed by x. -/
theorem byte_routing_start_flush_else_append_witness :
    (abAut.isStart (abAut.nextState 1 120) = true →
      ∃ buf2, processByte abAut [[90]] ⟨1, [97], [0, 0], 0⟩ 120 =
          .ok (.ok ⟨abAut.nextState 1 120, [], buf2, 0 + 1 + 1⟩) ∧
        buf2.take (0 + 1 + 1) = ([0, 0] : List Nat).take 0 ++ [97] ++ [120]) ∧
    (abAut.isStart (abAut.nextState 1 120) = false →
      processByte abAut [[90]] ⟨1, [97], [0, 0], 0⟩ 120 = handleNonStart abAut
        [[90]] (abAut.nextState 1 120) ([97] ++ [120]) [0, 0] 0 ∧
      (abAut.isMatch (abAut.nextState 1 120) = false →
        processByte abAut [[90]] ⟨1, [97], [0, 0], 0⟩ 120 =
          .ok (.ok ⟨abAut.nextState 1 120, [97] ++ [120], [0, 0], 0⟩))) :=
  byte_routing_start_flush_else_append abAut [[90]] ⟨1, [97], [0, 0], 0⟩ 120
    (by decide) (by decide)

/-- C5: `finish` returns the pending-queue contents verbatim and in order
when the queue is non-empty, and an empty slice when it is empty. -/
theorem finish_emits_pending_verbatim (r : AhoCorasickReplacer) :
    (r.potential_buffer ≠ [] →
      ∃ r2, r.finish = .ok (r.potential_buffer, r2)) ∧
    (r.potential_buffer = [] → ∃ r2, r.finish = .ok ([], r2)) := by
  constructor
  · intro _
    exact ⟨r, finish_eq r⟩
  · intro h
    refine ⟨r, ?_⟩
    rw [finish_eq, h]

/-- C5 witness: a replacer with pending a (97), and a fresh one. -/
theorem finish_emits_pending_verbatim_witness :
    (∃ r2, pendingReplacer.finish = .ok ([97], r2)) ∧
    (∃ r2, abReplacer.finish = .ok ([], r2)) :=
  ⟨(finish_emits_pending_verbatim pendingReplacer).1 (by decide),
   (finish_emits_pending_verbatim abReplacer).2 rfl⟩

/-- C6: the pending queue is empty at construction, and every successful
`replace` call preserves the invariant that a non-empty pending queue implies
the stored state is not the start state. -/
theorem pending_nonempty_only_off_start :
    (∀ (aut : AcAutomaton) (kind : Nat) (rtab : List (List Nat))
      (r0 : AhoCorasickReplacer),
      AhoCorasickReplacer.new aut kind rtab = .ok r0 →
      r0.potential_buffer = []) ∧
    (∀ (r r' : AhoCorasickReplacer) (chunk out : List Nat),
      (r.potential_buffer ≠ [] → r.aut.isStart r.sid = false) →
      r.replace chunk = .ok (.ok (out, r')) →
      (r'.potential_buffer ≠ [] → r'.aut.isStart r'.sid = false)) := by
  constructor
  · intro aut kind rtab r0 h
    unfold AhoCorasickReplacer.new at h
    cases hss : aut.startState with
    | error e => rw [hss] at h; simp at h
    | ok s0 =>
      rw [hss] at h
      simp only [Except.ok.injEq] at h
      rw [← h]
  · intro r r' chunk out hinv hrep
    unfold AhoCorasickReplacer.replace at hrep
    cases hpc : processChunk r.aut r.replace_with chunk
        ⟨r.sid, r.potential_buffer, ensured_buffer r chunk, 0⟩ with
    | error p => rw [hpc] at hrep; simp at hrep
    | ok v =>
      cases v with
      | error e => rw [hpc] at hrep; simp at hrep
      | ok st1 =>
        rw [hpc] at hrep
        simp only [Except.ok.injEq, Prod.mk.injEq] at hrep
        obtain ⟨hout, hr⟩ := hrep
        have hi := processChunk_start_inv r.aut r.replace_with chunk
          ⟨r.sid, r.potential_buffer, ensured_buffer r chunk, 0⟩ st1 hpc hinv
        rw [← hr]
        exact hi

/-- C6 witness: construction, and one chunk taking a fresh replacer into a
mid-match state with non-empty pending queue and non-start state. -/
theorem pending_nonempty_only_off_start_witness :
    abReplacer.potential_buffer = [] ∧
    ((⟨abAut, 0, 1, [[90]], [0], [97]⟩ : AhoCorasickReplacer).potential_buffer
        ≠ [] →
      (⟨abAut, 0, 1, [[90]], [0], [97]⟩ : AhoCorasickReplacer).aut.isStart
        1 = false) :=
  ⟨pending_nonempty_only_off_start.1 abAut 0 [[90]] abReplacer rfl,
   pending_nonempty_only_off_start.2 abReplacer
     ⟨abAut, 0, 1, [[90]], [0], [97]⟩ [97] [] (by decide) rfl⟩

/-- C7: `replace` never hits the out-of-bounds write panic (the zero-length
doubling stall is unreachable): its result is a success or the unrelated
missing-table-entry panic, never `Panic.indexOutOfBounds`; and before any
chunk is processed the ensured buffer length is at least the chunk length
plus the pending-queue length. -/
theorem replace_write_in_bounds (r : AhoCorasickReplacer) (chunk : List Nat) :
    ((∃ v, r.replace chunk = .ok v) ∨
      r.replace chunk = .error Panic.missingReplacement) ∧
    chunk.length + r.potential_buffer.length ≤
      (ensured_buffer r chunk).length := by
  refine ⟨?_, ensured_buffer_length r chunk⟩
  cases chunk with
  | nil =>
    left
    exact ⟨_, rfl⟩
  | cons b rest =>
    have hbuf := ensured_buffer_length r (b :: rest)
    rcases processChunk_no_oob r.aut r.replace_with (b :: rest)
        ⟨r.sid, r.potential_buffer, ensured_buffer r (b :: rest), 0⟩
        (Nat.zero_le _)
        (show 1 ≤ (ensured_buffer r (b :: rest)).length by
          simp only [List.length_cons] at hbuf; omega) with
      ⟨st1, h⟩ | ⟨e, h⟩ | h
    · left
      have hr : r.replace (b :: rest) = .ok (.ok (st1.buffer.take st1.write_idx,
          { r with
            sid := st1.sid,
            potential_buffer := st1.potential_buffer,
            buffer := st1.buffer })) := by
        unfold AhoCorasickReplacer.replace
        rw [h]
      exact ⟨_, hr⟩
    · left
      have hr : r.replace (b :: rest) = .ok (.error e) := by
        unfold AhoCorasickReplacer.replace
        rw [h]
      exact ⟨_, hr⟩
    · right
      unfold AhoCorasickReplacer.replace
      rw [h]

/-- C8: the only error surfaced by construction or `replace` is the one
propagated unchanged from the adapter's start-state acquisition, and a failing
byte aborts the chunk loop immediately, skipping the remaining bytes. -/
theorem errors_only_from_start_acquisition :
    (∀ (aut : AcAutomaton) (kind : Nat) (rtab : List (List Nat))
      (e : MatchError),
      AhoCorasickReplacer.new aut kind rtab = .error e ↔
        aut.startState = .error e) ∧
    (∀ (r : AhoCorasickReplacer) (chunk : List Nat) (e : MatchError),
      r.replace chunk = .ok (.error e) → r.aut.startState = .error e) ∧
    (∀ (aut : AcAutomaton) (rtab : List (List Nat)) (st : LoopState) (b : Nat)
      (rest : List Nat) (e : MatchError),
      processByte aut rtab st b = .ok (.error e) →
      processChunk aut rtab (b :: rest) st = .ok (.error e)) := by
  refine ⟨?_, ?_, ?_⟩
  · intro aut kind rtab e
    unfold AhoCorasickReplacer.new
    cases hss : aut.startState with
    | error e2 => simp
    | ok s0 => simp
  · intro r chunk e h
    unfold AhoCorasickReplacer.replace at h
    cases hpc : processChunk r.aut r.replace_with chunk
        ⟨r.sid, r.potential_buffer, ensured_buffer r chunk, 0⟩ with
    | error p => rw [hpc] at h; simp at h
    | ok v =>
      cases v with
      | error e2 =>
        rw [hpc] at h
        simp only [Except.ok.injEq, Except.error.injEq] at h
        rw [h] at hpc
        exact processChunk_error_start r.aut r.replace_with chunk _ e hpc
      | ok st1 => rw [hpc] at h; simp at h
  · intro aut rtab st b rest e h
    simp only [processChunk]
    rw [h]

/-- C8 witness: an adapter whose start-state acquisition fails with a
concrete error, surfaced by `new` and by a `replace` that hits a match. -/
theorem errors_only_from_start_acquisition_witness :
    AhoCorasickReplacer.new errAut 0 [[]] = .error ⟨5⟩ ∧
    errAut.startState = .error ⟨5⟩ :=
  ⟨(errors_only_from_start_acquisition.1 errAut 0 [[]] ⟨5⟩).2 rfl,
   errors_only_from_start_acquisition.2.1 errReplacer [7] ⟨5⟩ rfl⟩

/-- C9: `replace` on the empty chunk returns `Ok` with an empty slice and
leaves the observable state — the stored automaton state and the pending
queue — unchanged (only the reusable output buffer may have been grown). -/
theorem replace_empty_chunk_identity (r : AhoCorasickReplacer) :
    ∃ r', r.replace [] = .ok (.ok ([], r')) ∧ r'.sid = r.sid ∧
      r'.potential_buffer = r.potential_buffer ∧ r'.aut = r.aut ∧
      r'.replace_with = r.replace_with ∧ r'.kind = r.kind := by
  refine ⟨{ r with buffer := ensured_buffer r [] }, ?_, rfl, rfl, rfl, rfl, rfl⟩
  unfold AhoCorasickReplacer.replace
  simp [processChunk]

/-- C10: `finish` never returns an error, and it does not clear the pending
queue it reports: the returned replacer still holds the same pending bytes,
so a second `finish` returns the same slice again. -/
theorem finish_infallible_nondestructive (r : AhoCorasickReplacer) :
    ∃ out r2, r.finish = .ok (out, r2) ∧
      r2.potential_buffer = r.potential_buffer ∧ r2.finish = .ok (out, r2) :=
  ⟨r.potential_buffer, r, finish_eq r, rfl, finish_eq r⟩

end AhoCorasick
